import Mathlib

/-!
Verification of the blackjack state machine in `src/game.rs` (with the duplicate
hand-scoring module `src/game/card.rs`).  The terminal rendering and raw input
layers are I/O adapters with no game logic and are not modelled; `Game` keeps the
`deck`, `state`, `player` and `dealer` fields of the Rust struct.  Machine
integers (`u16` hand totals in `game.rs`, the `u8` fold accumulator in
`card.rs`) are modelled as `Nat` with explicit wrapping `% 2^16` / `% 2^8`,
matching release-mode Rust arithmetic.
-/

set_option maxHeartbeats 1000000

namespace Blackjack

/-- `CardNumber` in `game.rs`: the thirteen ranks. -/
inductive CardNumber where
  | ace | two | three | four | five | six | seven | eight | nine | ten | jack | queen | king
deriving DecidableEq, Repr

/-- `Suit` in `game.rs`, in the derived `Suit::iter()` order. -/
inductive Suit where
  | clubs | diamonds | spades | hearts
deriving DecidableEq, Repr

/-- `Card(CardNumber, Suit)` in `game.rs`. -/
structure Card where
  number : CardNumber
  suit : Suit
deriving DecidableEq, Repr

/-- `CardNumber::iter()` order. -/
def CardNumber.all : List CardNumber :=
  [.ace, .two, .three, .four, .five, .six, .seven, .eight, .nine, .ten, .jack, .queen, .king]

/-- `Suit::iter()` order. -/
def Suit.all : List Suit := [.clubs, .diamonds, .spades, .hearts]

/-- `pack()` in `game.rs`: suits crossed with card numbers, suits in the outer loop. -/
def pack : List Card :=
  Suit.all.flatMap fun suit => CardNumber.all.map fun number => Card.mk number suit

/-- `Hand` in `game.rs`: dealt cards plus the running `points : u16` total. -/
structure Hand where
  cards : List Card
  points : Nat
deriving DecidableEq, Repr

/-- `Hand::new()` in `game.rs`. -/
def Hand.new : Hand := { cards := [], points := 0 }

/-- `Hand::add_card` in `game.rs`: bumps the running u16 total (wrapping at 2^16 as
in release-mode Rust) by the card value, an ace counting 11 unless that would push
the total past 21, then pushes the card. -/
def Hand.addCard (h : Hand) (card : Card) : Hand :=
  { points := (h.points +
      match card.number with
      | .ace => if (h.points + 11) % 65536 > 21 then 1 else 11
      | .two => 2
      | .three => 3
      | .four => 4
      | .five => 5
      | .six => 6
      | .seven => 7
      | .eight => 8
      | .nine => 9
      | .ten | .jack | .queen | .king => 10) % 65536
    cards := h.cards ++ [card] }

/-- `Input` in `game.rs` (`Continue` renamed to `cont`: `continue` is reserved). -/
inductive Input where
  | cont | up | down
deriving DecidableEq, Repr

/-- `Choice` in `game.rs` (`DoubleDown` is commented out in the source). -/
inductive Choice where
  | hit | stand | surrender
deriving DecidableEq, Repr

/-- `GameResult` in `game.rs`. -/
inductive GameResult where
  | win | lose | tie
deriving DecidableEq, Repr

/-- `Stage` in `game.rs`. -/
inductive Stage where
  | first | second | third
deriving DecidableEq, Repr

/-- `State` in `game.rs`. -/
inductive State where
  | starting (stage : Stage)
  | presenting
  | selecting (choice : Choice)
  | standing
  | gameOver (result : GameResult)
deriving DecidableEq, Repr

/-- `Game` in `game.rs`, without the terminal handle (pure I/O). -/
structure Game where
  deck : List Card
  state : State
  player : Hand
  dealer : Hand
deriving DecidableEq, Repr

/-- `Game::new()` in `game.rs`: full pack, empty hands, `Starting(First)`. -/
def Game.new : Game :=
  { deck := pack, state := .starting .first, player := Hand.new, dealer := Hand.new }

/-- `Game::deal_player` in `game.rs`: `Vec::pop` takes the last card of the deck;
`none` models the `unwrap()` panic on an empty deck. -/
def Game.dealPlayer (g : Game) : Option Game :=
  match g.deck.getLast? with
  | none => none
  | some c => some { g with deck := g.deck.dropLast, player := g.player.addCard c }

/-- `Game::deal_dealer` in `game.rs`. -/
def Game.dealDealer (g : Game) : Option Game :=
  match g.deck.getLast? with
  | none => none
  | some c => some { g with deck := g.deck.dropLast, dealer := g.dealer.addCard c }

/-- `Game::update` in `game.rs`.  `shuffled` stands for the outcome of the random
`self.shuffle()` in the `Starting(First)` arm (the step relation below constrains
it to a permutation of the deck); it is unused in every other arm.  `none` models
the empty-deck `unwrap()` panic inside `deal_player` / `deal_dealer`. -/
def Game.update (input : Input) (shuffled : List Card) (g : Game) : Option Game :=
  match g.state, input with
  | .starting .first, .cont =>
    (Game.dealPlayer { g with deck := shuffled }).map
      fun g2 => { g2 with state := .starting .second }
  | .starting .second, .cont =>
    g.dealDealer.map fun g2 => { g2 with state := .starting .third }
  | .starting .third, .cont =>
    g.dealPlayer.map fun g2 => { g2 with state := .selecting .hit }
  | .selecting choice, inp =>
    match inp, choice with
    | .cont, .hit =>
      g.dealPlayer.map fun g2 =>
        { g2 with state := if g2.player.points > 21 then .gameOver .lose else .selecting .hit }
    | .cont, .stand =>
      g.dealDealer.map fun g2 =>
        { g2 with state :=
            if g2.dealer.points > 21 then .gameOver .win
            else if g2.dealer.points < 17 then .standing
            else if g2.dealer.points > g2.player.points then .gameOver .lose
            else if g2.dealer.points < g2.player.points then .gameOver .win
            else .gameOver .tie }
    | .cont, .surrender => some { g with state := .gameOver .lose }
    | .up, .hit => some { g with state := .selecting .stand }
    | .up, .stand => some { g with state := .selecting .surrender }
    | .up, .surrender => some { g with state := .selecting .hit }
    | .down, .hit => some { g with state := .selecting .stand }
    | .down, .stand => some { g with state := .selecting .surrender }
    | .down, .surrender => some { g with state := .selecting .hit }
  | .presenting, _ => some { g with state := .selecting .hit }
  | .standing, .cont =>
    g.dealDealer.map fun g2 =>
      { g2 with state :=
          if g2.dealer.points > 21 then .gameOver .win
          else if g2.dealer.points < 17 then .standing
          else if g2.dealer.points > g2.player.points then .gameOver .lose
          else if g2.dealer.points < g2.player.points then .gameOver .win
          else .gameOver .tie }
  | .gameOver _, .cont =>
    some { deck := g.deck ++ g.dealer.cards ++ g.player.cards
           state := .starting .first
           player := { cards := [], points := 0 }
           dealer := { cards := [], points := 0 } }
  | _, _ => some g

/-- States reachable by the `main.rs` session loop: one input per step, `update`
run on it, the `Starting(First)` shuffle being an arbitrary permutation of the
current deck. -/
inductive Reachable : Game → Prop where
  | init : Reachable Game.new
  | step {g g' : Game} {input : Input} {shuffled : List Card} :
      Reachable g → shuffled.Perm g.deck → g.update input shuffled = some g' →
      Reachable g'

/-- Builds the hand obtained by `Hand::add_card`-ing the given cards in order onto
`Hand::new()`. -/
def Hand.ofList (cards : List Card) : Hand := cards.foldl Hand.addCard Hand.new

namespace CardRs

/-- `Hand::points` from `src/game/card.rs`: recomputes the total from scratch by a
left fold whose accumulator is a `u8` (wrapping at 2^8 as in release-mode Rust). -/
def points (cards : List Card) : Nat :=
  cards.foldl
    (fun it c =>
      match c.number with
      | .ace => if (it + 11) % 256 > 21 then (it + 1) % 256 else (it + 11) % 256
      | .two => (it + 2) % 256
      | .three => (it + 3) % 256
      | .four => (it + 4) % 256
      | .five => (it + 5) % 256
      | .six => (it + 6) % 256
      | .seven => (it + 7) % 256
      | .eight => (it + 8) % 256
      | .nine => (it + 9) % 256
      | .ten | .jack | .queen | .king => (it + 10) % 256)
    0

end CardRs

/-- The shared scoring recurrence over unbounded naturals, one card value added to a
running total; used to state when the u8 and u16 computations cannot wrap. -/
def natPointsStep (it : Nat) (n : CardNumber) : Nat :=
  match n with
  | .ace => if it + 11 > 21 then it + 1 else it + 11
  | .two => it + 2
  | .three => it + 3
  | .four => it + 4
  | .five => it + 5
  | .six => it + 6
  | .seven => it + 7
  | .eight => it + 8
  | .nine => it + 9
  | .ten | .jack | .queen | .king => it + 10

/-- Unbounded-integer hand total of a card sequence. -/
def natPoints (cards : List Card) : Nat :=
  cards.foldl (fun it c => natPointsStep it c.number) 0

/-- The u16 running-total update applied by `Hand::add_card` in `game.rs`, isolated
as a fold step on the points value alone. -/
def step16 (it : Nat) (c : Card) : Nat :=
  (it + match c.number with
    | .ace => if (it + 11) % 65536 > 21 then 1 else 11
    | .two => 2
    | .three => 3
    | .four => 4
    | .five => 5
    | .six => 6
    | .seven => 7
    | .eight => 8
    | .nine => 9
    | .ten | .jack | .queen | .king => 10) % 65536

/-- The u8 fold step of `Hand::points` in `card.rs`, isolated. -/
def step8 (it : Nat) (c : Card) : Nat :=
  match c.number with
  | .ace => if (it + 11) % 256 > 21 then (it + 1) % 256 else (it + 11) % 256
  | .two => (it + 2) % 256
  | .three => (it + 3) % 256
  | .four => (it + 4) % 256
  | .five => (it + 5) % 256
  | .six => (it + 6) % 256
  | .seven => (it + 7) % 256
  | .eight => (it + 8) % 256
  | .nine => (it + 9) % 256
  | .ten | .jack | .queen | .king => (it + 10) % 256

/-- The single menu step that `Game::update` applies for both `Up` and `Down`
while in `Selecting` (same direction for both inputs, per the source). -/
def Choice.next : Choice → Choice
  | .hit => .stand
  | .stand => .surrender
  | .surrender => .hit

/-- All 52 cards are distributed among deck, player hand and dealer hand: their
concatenation is a permutation of the pack. -/
def conserved (g : Game) : Prop :=
  List.Perm (g.deck ++ g.player.cards ++ g.dealer.cards) pack

/-- Phase-dependent part of the reachability invariant of `Game::update`. -/
def phaseInv (state : State) (player dealer : Hand) : Prop :=
  match state with
  | .starting .first => player = Hand.new ∧ dealer = Hand.new
  | .starting .second =>
      player.cards.length = 1 ∧ player.points ≤ 11 ∧ dealer = Hand.new
  | .starting .third =>
      player.cards.length = 1 ∧ player.points ≤ 11 ∧
      dealer.cards.length = 1 ∧ dealer.points ≤ 11
  | .presenting => False
  | .selecting _ => player.points ≤ 21 ∧ dealer.cards.length = 1 ∧ dealer.points ≤ 11
  | .standing => player.points ≤ 21 ∧ dealer.points < 17
  | .gameOver _ => True

/-- Reachability invariant: the 52 cards are conserved, each hand never holds more
cards than its point total, and the phase-dependent constraints hold. -/
def Inv (g : Game) : Prop :=
  conserved g ∧ g.player.cards.length ≤ g.player.points ∧
    g.dealer.cards.length ≤ g.dealer.points ∧ phaseInv g.state g.player g.dealer

/-- Example state: mid-round `Standing`, one card left in the deck. -/
def gStandEx : Game :=
  { deck := [⟨.five, .clubs⟩], state := .standing,
    player := { cards := [⟨.king, .clubs⟩, ⟨.nine, .clubs⟩], points := 19 },
    dealer := { cards := [⟨.ten, .clubs⟩], points := 10 } }

/-- The state `gStandEx` steps to on `Continue`. -/
def gStandEx' : Game :=
  { deck := [], state := .standing,
    player := { cards := [⟨.king, .clubs⟩, ⟨.nine, .clubs⟩], points := 19 },
    dealer := { cards := [⟨.ten, .clubs⟩, ⟨.five, .clubs⟩], points := 15 } }

/-- Example state: `Selecting(Hit)` with the player at 20 and a king on top. -/
def gHitEx : Game :=
  { deck := [⟨.king, .hearts⟩], state := .selecting .hit,
    player := { cards := [⟨.king, .clubs⟩, ⟨.king, .diamonds⟩], points := 20 },
    dealer := { cards := [⟨.ten, .clubs⟩], points := 10 } }

/-- The state `gHitEx` steps to on `Continue`: the player busts at 30. -/
def gHitEx' : Game :=
  { deck := [], state := .gameOver .lose,
    player := { cards := [⟨.king, .clubs⟩, ⟨.king, .diamonds⟩, ⟨.king, .hearts⟩],
                points := 30 },
    dealer := { cards := [⟨.ten, .clubs⟩], points := 10 } }

/-- Example state: a finished round with all cards back in the deck. -/
def gOverEx : Game :=
  { deck := pack, state := .gameOver .win, player := Hand.new, dealer := Hand.new }

/-- Example state in the `Presenting` phase. -/
def gPresentEx : Game :=
  { deck := pack, state := .presenting, player := Hand.new, dealer := Hand.new }

/-- Example state in the `Selecting(Hit)` phase. -/
def gSelectEx : Game :=
  { deck := pack, state := .selecting .hit, player := Hand.new, dealer := Hand.new }

/-- First state of a concrete session whose `Starting(First)` shuffle is the
reversed pack: the player was dealt the ace of clubs. -/
def gR1 : Game :=
  { deck := pack.reverse.dropLast, state := .starting .second,
    player := { cards := [⟨.ace, .clubs⟩], points := 11 }, dealer := Hand.new }

/-- Second state of the session: the dealer was dealt the two of clubs. -/
def gR2 : Game :=
  { deck := pack.reverse.dropLast.dropLast, state := .starting .third,
    player := { cards := [⟨.ace, .clubs⟩], points := 11 },
    dealer := { cards := [⟨.two, .clubs⟩], points := 2 } }

/-- Third state of the session: the player was dealt the three of clubs. -/
def gR3 : Game :=
  { deck := pack.reverse.dropLast.dropLast.dropLast, state := .selecting .hit,
    player := { cards := [⟨.ace, .clubs⟩, ⟨.three, .clubs⟩], points := 14 },
    dealer := { cards := [⟨.two, .clubs⟩], points := 2 } }

/-- Fourth state of the session: the menu moved to `Stand`. -/
def gR4 : Game := { gR3 with state := .selecting .stand }

/-- Fifth state of the session: the stand was committed, the dealer drew the four
of clubs and sits at 6 points, so the game is `Standing`. -/
def gR5 : Game :=
  { deck := pack.reverse.dropLast.dropLast.dropLast.dropLast, state := .standing,
    player := { cards := [⟨.ace, .clubs⟩, ⟨.three, .clubs⟩], points := 14 },
    dealer := { cards := [⟨.two, .clubs⟩, ⟨.four, .clubs⟩], points := 6 } }

/-! ### Basic lemmas about `Hand.addCard` and dealing -/

theorem Hand.addCard_cards (h : Hand) (c : Card) :
    (h.addCard c).cards = h.cards ++ [c] := rfl

theorem Hand.addCard_points_le (h : Hand) (c : Card) :
    (h.addCard c).points ≤ h.points + 11 := by
  obtain ⟨n, s⟩ := c
  cases n <;> simp [Hand.addCard] <;> first | (split <;> omega) | omega

theorem Hand.addCard_points_lower (h : Hand) (c : Card) (hp : h.points ≤ 21) :
    h.points + 1 ≤ (h.addCard c).points := by
  obtain ⟨n, s⟩ := c
  cases n <;> simp [Hand.addCard] <;> first | (split <;> omega) | omega

theorem Hand.addCard_points_le21 (h : Hand) (c : Card) (hp : h.points ≤ 11) :
    (h.addCard c).points ≤ 21 := by
  obtain ⟨n, s⟩ := c
  cases n <;> simp [Hand.addCard] <;> first | (split <;> omega) | omega

theorem deck_pop_split {l : List Card} {c : Card} (hL : l.getLast? = some c) :
    l.dropLast ++ [c] = l :=
  List.dropLast_append_getLast? c (Option.mem_def.mpr hL)

theorem perm_draw_left {d dl p q : List Card} {c : Card} (hd : dl ++ [c] = d) :
    List.Perm (dl ++ (p ++ [c]) ++ q) (d ++ p ++ q) := by
  subst hd
  have h1 : List.Perm (p ++ [c]) ([c] ++ p) := List.perm_append_comm
  refine ((h1.append_left dl).append_right q).trans ?_
  simp [List.append_assoc]

theorem perm_draw_right {d dl p q : List Card} {c : Card} (hd : dl ++ [c] = d) :
    List.Perm (dl ++ p ++ (q ++ [c])) (d ++ p ++ q) := by
  subst hd
  have h1 : List.Perm ((p ++ q) ++ [c]) ([c] ++ (p ++ q)) := List.perm_append_comm
  have h2 := h1.append_left dl
  simpa [List.append_assoc] using h2

theorem conserved_length {g : Game} (hc : conserved g) :
    g.deck.length + g.player.cards.length + g.dealer.cards.length = 52 := by
  have h52 : pack.length = 52 := by decide
  have := hc.length_eq
  simp [List.length_append] at this
  omega

theorem perm_reset {d p q : List Card} (hc : List.Perm (d ++ p ++ q) pack) :
    List.Perm (d ++ q ++ p) pack := by
  have h1 : List.Perm (d ++ q ++ p) (d ++ p ++ q) := by
    have h2 : List.Perm (q ++ p) (p ++ q) := List.perm_append_comm
    have := h2.append_left d
    simpa [List.append_assoc] using this
  exact h1.trans hc

/-! ### The reachability invariant -/

theorem inv_init : Inv Game.new := by
  refine ⟨?_, by simp [Game.new, Hand.new], by simp [Game.new, Hand.new], by
    simp [Game.new, phaseInv]⟩
  simp [conserved, Game.new, Hand.new]

theorem inv_step {g g' : Game} {input : Input} {shuffled : List Card}
    (hinv : Inv g) (hperm : List.Perm shuffled g.deck)
    (hupd : g.update input shuffled = some g') : Inv g' := by
  obtain ⟨hc, hlp, hld, hphase⟩ := hinv
  obtain ⟨deck, state, player, dealer⟩ := g
  simp only [conserved] at hc
  simp only at hlp hld hphase hperm
  cases state with
  | presenting => exact hphase.elim
  | starting st =>
    cases st with
    | first =>
      obtain ⟨hp, hd⟩ := hphase
      subst hp; subst hd
      cases input with
      | cont =>
        cases hL : shuffled.getLast? with
        | none => simp [Game.update, Game.dealPlayer, hL] at hupd
        | some c =>
          have hsplit := deck_pop_split hL
          simp [Game.update, Game.dealPlayer, hL] at hupd
          subst hupd
          have hpk : List.Perm shuffled pack := hperm.trans (by simpa [Hand.new] using hc)
          refine ⟨?_, ?_, ?_, ?_⟩
          · exact (perm_draw_left hsplit).trans (by simpa [Hand.new] using hpk)
          · have := Hand.addCard_points_lower Hand.new c (by simp [Hand.new])
            simp [Hand.addCard_cards, Hand.new] at this ⊢
            omega
          · simp [Hand.new]
          · refine ⟨?_, ?_, rfl⟩
            · simp [Hand.addCard_cards, Hand.new]
            · have := Hand.addCard_points_le Hand.new c
              simpa [Hand.new] using this
      | up =>
        simp [Game.update] at hupd
        subst hupd
        exact ⟨hc, hlp, hld, rfl, rfl⟩
      | down =>
        simp [Game.update] at hupd
        subst hupd
        exact ⟨hc, hlp, hld, rfl, rfl⟩
    | second =>
      obtain ⟨hp1, hp2, hd⟩ := hphase
      subst hd
      cases input with
      | cont =>
        cases hL : deck.getLast? with
        | none => simp [Game.update, Game.dealDealer, hL] at hupd
        | some c =>
          have hsplit := deck_pop_split hL
          simp [Game.update, Game.dealDealer, hL] at hupd
          subst hupd
          refine ⟨?_, hlp, ?_, ?_⟩
          · exact (perm_draw_right hsplit).trans hc
          · have := Hand.addCard_points_lower Hand.new c (by simp [Hand.new])
            simp [Hand.addCard_cards, Hand.new] at this ⊢
            omega
          · refine ⟨hp1, hp2, by simp [Hand.addCard_cards, Hand.new], ?_⟩
            have := Hand.addCard_points_le Hand.new c
            simpa [Hand.new] using this
      | up =>
        simp [Game.update] at hupd
        subst hupd
        exact ⟨hc, hlp, hld, hp1, hp2, rfl⟩
      | down =>
        simp [Game.update] at hupd
        subst hupd
        exact ⟨hc, hlp, hld, hp1, hp2, rfl⟩
    | third =>
      obtain ⟨hp1, hp2, hd1, hd2⟩ := hphase
      cases input with
      | cont =>
        cases hL : deck.getLast? with
        | none => simp [Game.update, Game.dealPlayer, hL] at hupd
        | some c =>
          have hsplit := deck_pop_split hL
          simp [Game.update, Game.dealPlayer, hL] at hupd
          subst hupd
          refine ⟨?_, ?_, hld, ?_⟩
          · exact (perm_draw_left hsplit).trans hc
          · have := Hand.addCard_points_lower player c (by omega)
            simp [Hand.addCard_cards]
            omega
          · exact ⟨Hand.addCard_points_le21 player c hp2, hd1, hd2⟩
      | up =>
        simp [Game.update] at hupd
        subst hupd
        exact ⟨hc, hlp, hld, hp1, hp2, hd1, hd2⟩
      | down =>
        simp [Game.update] at hupd
        subst hupd
        exact ⟨hc, hlp, hld, hp1, hp2, hd1, hd2⟩
  | selecting choice =>
    obtain ⟨hp1, hd1, hd2⟩ := hphase
    cases choice with
    | hit =>
      cases input with
      | cont =>
        cases hL : deck.getLast? with
        | none => simp [Game.update, Game.dealPlayer, hL] at hupd
        | some c =>
          have hsplit := deck_pop_split hL
          simp [Game.update, Game.dealPlayer, hL] at hupd
          subst hupd
          have hlow := Hand.addCard_points_lower player c hp1
          refine ⟨(perm_draw_left hsplit).trans hc, ?_, hld, ?_⟩
          · simp [Hand.addCard_cards]
            omega
          · dsimp only
            split
            next hb => trivial
            next hb => exact ⟨by omega, hd1, hd2⟩
      | up =>
        simp [Game.update] at hupd
        subst hupd
        exact ⟨hc, hlp, hld, hp1, hd1, hd2⟩
      | down =>
        simp [Game.update] at hupd
        subst hupd
        exact ⟨hc, hlp, hld, hp1, hd1, hd2⟩
    | stand =>
      cases input with
      | cont =>
        cases hL : deck.getLast? with
        | none => simp [Game.update, Game.dealDealer, hL] at hupd
        | some c =>
          have hsplit := deck_pop_split hL
          simp [Game.update, Game.dealDealer, hL] at hupd
          subst hupd
          have hlow := Hand.addCard_points_lower dealer c (by omega)
          refine ⟨(perm_draw_right hsplit).trans hc, hlp, ?_, ?_⟩
          · simp [Hand.addCard_cards]
            omega
          · dsimp only
            split
            next h1 => trivial
            next h1 =>
              split
              next h2 => exact ⟨hp1, h2⟩
              next h2 =>
                split
                next h3 => trivial
                next h3 =>
                  split
                  next h4 => trivial
                  next h4 => trivial
      | up =>
        simp [Game.update] at hupd
        subst hupd
        exact ⟨hc, hlp, hld, hp1, hd1, hd2⟩
      | down =>
        simp [Game.update] at hupd
        subst hupd
        exact ⟨hc, hlp, hld, hp1, hd1, hd2⟩
    | surrender =>
      cases input with
      | cont =>
        simp [Game.update] at hupd
        subst hupd
        exact ⟨hc, hlp, hld, trivial⟩
      | up =>
        simp [Game.update] at hupd
        subst hupd
        exact ⟨hc, hlp, hld, hp1, hd1, hd2⟩
      | down =>
        simp [Game.update] at hupd
        subst hupd
        exact ⟨hc, hlp, hld, hp1, hd1, hd2⟩
  | standing =>
    obtain ⟨hp1, hd17⟩ := hphase
    cases input with
    | cont =>
      cases hL : deck.getLast? with
      | none => simp [Game.update, Game.dealDealer, hL] at hupd
      | some c =>
        have hsplit := deck_pop_split hL
        simp [Game.update, Game.dealDealer, hL] at hupd
        subst hupd
        have hlow := Hand.addCard_points_lower dealer c (by omega)
        refine ⟨(perm_draw_right hsplit).trans hc, hlp, ?_, ?_⟩
        · simp [Hand.addCard_cards]
          omega
        · dsimp only
          split
          next h1 => trivial
          next h1 =>
            split
            next h2 => exact ⟨hp1, h2⟩
            next h2 =>
              split
              next h3 => trivial
              next h3 =>
                split
                next h4 => trivial
                next h4 => trivial
    | up =>
      simp [Game.update] at hupd
      subst hupd
      exact ⟨hc, hlp, hld, hp1, hd17⟩
    | down =>
      simp [Game.update] at hupd
      subst hupd
      exact ⟨hc, hlp, hld, hp1, hd17⟩
  | gameOver result =>
    cases input with
    | cont =>
      simp [Game.update] at hupd
      subst hupd
      refine ⟨?_, by simp, by simp, rfl, rfl⟩
      simpa [conserved] using perm_reset hc
    | up =>
      simp [Game.update] at hupd
      subst hupd
      exact ⟨hc, hlp, hld, trivial⟩
    | down =>
      simp [Game.update] at hupd
      subst hupd
      exact ⟨hc, hlp, hld, trivial⟩

/-- Every reachable state satisfies the invariant. -/
theorem inv_of_reachable {g : Game} (h : Reachable g) : Inv g := by
  induction h with
  | init => exact inv_init
  | step _ hperm hupd ih => exact inv_step ih hperm hupd

/-- The concrete session `Game.new → gR1 → gR2 → gR3 → gR4 → gR5` is realizable,
so `gR5` (a `Standing` state) is reachable. -/
theorem gR5_reachable : Reachable gR5 := by
  have h1 : Reachable Game.new := Reachable.init
  have h2 : Reachable gR1 :=
    @Reachable.step Game.new gR1 .cont pack.reverse h1 (List.reverse_perm pack) (by decide)
  have h3 : Reachable gR2 :=
    @Reachable.step gR1 gR2 .cont gR1.deck h2 (List.Perm.refl _) (by decide)
  have h4 : Reachable gR3 :=
    @Reachable.step gR2 gR3 .cont gR2.deck h3 (List.Perm.refl _) (by decide)
  have h5 : Reachable gR4 :=
    @Reachable.step gR3 gR4 .up gR3.deck h4 (List.Perm.refl _) (by decide)
  exact @Reachable.step gR4 gR5 .cont gR4.deck h5 (List.Perm.refl _) (by decide)

/-! ### Scoring folds: wrap-free agreement -/

theorem natStep_lower (it : Nat) (n : CardNumber) : it + 1 ≤ natPointsStep it n := by
  cases n <;> simp only [natPointsStep] <;> first | (split <;> omega) | omega

theorem natFold_mono (l : List Card) :
    ∀ it : Nat, it ≤ l.foldl (fun a c => natPointsStep a c.number) it := by
  induction l with
  | nil => intro it; simp
  | cons c t ih =>
    intro it
    simp only [List.foldl_cons]
    exact le_trans (le_trans (Nat.le_succ it) (natStep_lower it c.number))
      (ih (natPointsStep it c.number))

theorem step8_eq_nat {it : Nat} (c : Card) (h : it ≤ 244) :
    step8 it c = natPointsStep it c.number := by
  obtain ⟨n, s⟩ := c
  have e1 : (it + 11) % 256 = it + 11 := Nat.mod_eq_of_lt (by omega)
  have e2 : (it + 1) % 256 = it + 1 := Nat.mod_eq_of_lt (by omega)
  cases n <;> simp only [step8, natPointsStep, e1, e2] <;> omega

theorem step16_eq_nat {it : Nat} (c : Card) (h : it ≤ 244) :
    step16 it c = natPointsStep it c.number := by
  obtain ⟨n, s⟩ := c
  have e1 : (it + 11) % 65536 = it + 11 := Nat.mod_eq_of_lt (by omega)
  cases n <;> simp only [step16, natPointsStep, e1] <;>
    first | (by_cases hb : it + 11 > 21 <;> simp [hb] <;> omega) | omega

theorem fold_agree (l : List Card) :
    ∀ it : Nat, l.foldl (fun a c => natPointsStep a c.number) it ≤ 245 →
      l.foldl step8 it = l.foldl (fun a c => natPointsStep a c.number) it ∧
      l.foldl step16 it = l.foldl (fun a c => natPointsStep a c.number) it := by
  induction l with
  | nil => intro it h; exact ⟨rfl, rfl⟩
  | cons c t ih =>
    intro it h
    simp only [List.foldl_cons] at h ⊢
    have hmono := natFold_mono t (natPointsStep it c.number)
    have hstep := natStep_lower it c.number
    have hit : it ≤ 244 := by omega
    rw [step8_eq_nat c hit, step16_eq_nat c hit]
    exact ih (natPointsStep it c.number) h

theorem ofList_points (l : List Card) :
    ∀ h : Hand, (l.foldl Hand.addCard h).points = l.foldl step16 h.points := by
  induction l with
  | nil => intro h; rfl
  | cons c t ih =>
    intro h
    simp only [List.foldl_cons]
    exact ih (h.addCard c)

theorem cardRs_points_eq_fold (l : List Card) : CardRs.points l = l.foldl step8 0 := rfl

/-! ### Claims -/

/-- C1: in every game state reachable from the initial game by any sequence of
update inputs, the multiset union of deck, player cards and dealer cards equals
exactly the 52-card pack, and in particular the three lengths sum to 52. -/
theorem conservation_of_reachable {g : Game} (h : Reachable g) :
    (↑(g.deck ++ g.player.cards ++ g.dealer.cards) : Multiset Card) = ↑pack ∧
    g.deck.length + g.player.cards.length + g.dealer.cards.length = 52 := by
  obtain ⟨hc, -, -, -⟩ := inv_of_reachable h
  exact ⟨Multiset.coe_eq_coe.mpr hc, conserved_length hc⟩

/-- Witness for C1 at the initial game. -/
theorem conservation_of_reachable_witness :
    (↑(Game.new.deck ++ Game.new.player.cards ++ Game.new.dealer.cards) : Multiset Card)
        = ↑pack ∧
    Game.new.deck.length + Game.new.player.cards.length + Game.new.dealer.cards.length
        = 52 :=
  conservation_of_reachable Reachable.init

/-- C2: on `Continue` in `Selecting(Stand)` or `Standing`, `update` deals exactly
one card (the deck top) to the dealer, leaves the player untouched, and resolves:
dealer over 21 is `GameOver(Win)`; else dealer below 17 is `Standing`; else the
totals are compared, dealer higher giving `GameOver(Lose)`, lower `GameOver(Win)`,
equal `GameOver(Tie)`. -/
theorem dealer_resolution {g g' : Game} {s : List Card}
    (hst : g.state = .selecting .stand ∨ g.state = .standing)
    (hne : g.deck ≠ [])
    (hupd : g.update .cont s = some g') :
    g'.deck = g.deck.dropLast ∧
    g'.player = g.player ∧
    g'.dealer = g.dealer.addCard (g.deck.getLast hne) ∧
    g'.state = (if g'.dealer.points > 21 then .gameOver .win
      else if g'.dealer.points < 17 then .standing
      else if g'.dealer.points > g.player.points then .gameOver .lose
      else if g'.dealer.points < g.player.points then .gameOver .win
      else .gameOver .tie) := by
  obtain ⟨deck, state, player, dealer⟩ := g
  simp only at hne hupd ⊢
  have hL : deck.getLast? = some (deck.getLast hne) :=
    List.getLast?_eq_getLast_of_ne_nil hne
  rcases hst with hst | hst <;> simp only at hst <;> subst hst <;>
    simp [Game.update, Game.dealDealer, hL] at hupd <;> subst hupd <;>
    exact ⟨rfl, rfl, rfl, rfl⟩

/-- Witness for C2: from `gStandEx` (dealer at 10, a five on top) the dealer draws
to 15, which is below 17 yet not a bust, so the phase stays `Standing`. -/
theorem dealer_resolution_witness :
    gStandEx.update .cont [] = some gStandEx' ∧ gStandEx'.state = .standing := by
  refine ⟨by decide, ?_⟩
  have h := @dealer_resolution gStandEx gStandEx' [] (Or.inr rfl)
    (List.cons_ne_nil _ _) (by decide)
  rw [h.2.2.2]
  decide

/-- C6: from `Selecting(Hit)`, `Continue` deals exactly one card (the deck top) to
the player and, whatever the dealer holds, moves to `GameOver(Lose)` when the new
player total exceeds 21, and back to `Selecting(Hit)` otherwise. -/
theorem hit_transition {g g' : Game} {s : List Card}
    (hst : g.state = .selecting .hit)
    (hne : g.deck ≠ [])
    (hupd : g.update .cont s = some g') :
    g'.deck = g.deck.dropLast ∧
    g'.dealer = g.dealer ∧
    g'.player = g.player.addCard (g.deck.getLast hne) ∧
    g'.state = (if g'.player.points > 21 then .gameOver .lose else .selecting .hit) := by
  obtain ⟨deck, state, player, dealer⟩ := g
  simp only at hst hne hupd ⊢
  subst hst
  have hL : deck.getLast? = some (deck.getLast hne) :=
    List.getLast?_eq_getLast_of_ne_nil hne
  simp [Game.update, Game.dealPlayer, hL] at hupd
  subst hupd
  exact ⟨rfl, rfl, rfl, rfl⟩

/-- Witness for C6: from `gHitEx` (player at 20, a king on top) the hit busts the
player at 30 and the phase is `GameOver(Lose)` although the dealer only holds 10. -/
theorem hit_transition_witness :
    gHitEx.update .cont [] = some gHitEx' ∧ gHitEx'.state = .gameOver .lose := by
  refine ⟨by decide, ?_⟩
  have h := @hit_transition gHitEx gHitEx' [] rfl (List.cons_ne_nil _ _) (by decide)
  rw [h.2.2.2]
  decide

/-- C7: from any `GameOver` state, `Continue` moves every dealer and player card
back into the deck, zeroes both hands, and restarts at `Starting(First)`; when the
state holds all 52 cards (as every reachable state does), the deck is restored to
52 cards. -/
theorem round_reset {g g' : Game} {r : GameResult} {s : List Card}
    (hst : g.state = .gameOver r)
    (h52 : g.deck.length + g.player.cards.length + g.dealer.cards.length = 52)
    (hupd : g.update .cont s = some g') :
    g'.deck = g.deck ++ g.dealer.cards ++ g.player.cards ∧
    g'.player.cards = [] ∧ g'.player.points = 0 ∧
    g'.dealer.cards = [] ∧ g'.dealer.points = 0 ∧
    g'.deck.length = 52 ∧ g'.state = .starting .first := by
  obtain ⟨deck, state, player, dealer⟩ := g
  simp only at hst h52 hupd ⊢
  subst hst
  simp [Game.update] at hupd
  subst hupd
  refine ⟨by simp, rfl, rfl, rfl, rfl, ?_, rfl⟩
  simp [List.length_append]
  omega

/-- Witness for C7 at a finished round holding the whole pack in the deck. -/
theorem round_reset_witness :
    gOverEx.update .cont [] = some Game.new ∧
    Game.new.deck.length = 52 ∧ Game.new.state = .starting .first := by
  refine ⟨by decide, ?_, rfl⟩
  have h := @round_reset gOverEx Game.new .win [] rfl (by decide) (by decide)
  exact h.2.2.2.2.2.1

/-- C3: `Hand::add_card` follows the incremental ace rule (an ace counts 11 unless
the running total plus 11 would exceed 21, in which case it counts 1, with no
re-evaluation of earlier aces), so from the empty hand `[Ace]` scores 11,
`[Ace, Ace]` scores 12 and `[King, Ace]` scores 21. -/
theorem ace_scoring :
    (∀ (h : Hand) (s : Suit), h.points ≤ 21 →
        (h.addCard ⟨.ace, s⟩).points =
          if h.points + 11 > 21 then h.points + 1 else h.points + 11) ∧
    (Hand.ofList [⟨.ace, .clubs⟩]).points = 11 ∧
    (Hand.ofList [⟨.ace, .clubs⟩, ⟨.ace, .spades⟩]).points = 12 ∧
    (Hand.ofList [⟨.king, .clubs⟩, ⟨.ace, .spades⟩]).points = 21 := by
  refine ⟨?_, by decide, by decide, by decide⟩
  intro h s hp
  have e1 : (h.points + 11) % 65536 = h.points + 11 := Nat.mod_eq_of_lt (by omega)
  simp only [Hand.addCard, e1]
  by_cases hb : h.points + 11 > 21 <;> simp [hb] <;> omega

/-- Witness for C3: the ace rule applied on top of a lone king gives 21. -/
theorem ace_scoring_witness :
    (Hand.ofList [⟨.king, .clubs⟩]).points ≤ 21 ∧
    ((Hand.ofList [⟨.king, .clubs⟩]).addCard ⟨.ace, .spades⟩).points = 21 := by
  refine ⟨by decide, ?_⟩
  rw [ace_scoring.1 (Hand.ofList [⟨.king, .clubs⟩]) .spades (by decide)]
  decide

/-- C4 counterexample: the `Presenting => Selecting(Hit)` arm of `Game::update`
has no `input == Continue` guard, so `Up` in `Presenting` changes the phase. -/
theorem presenting_up_changes_state :
    gPresentEx.update .up [] = some { gPresentEx with state := .selecting .hit } ∧
    ({ gPresentEx with state := .selecting .hit } : Game).state ≠ gPresentEx.state :=
  ⟨rfl, by decide⟩

/-- C4 amended: `Up` and `Down` are complete no-ops in every `Starting` stage, in
`Standing` and in every `GameOver` state; in `Presenting` they leave deck and both
hands unchanged but switch the phase to `Selecting(Hit)`. -/
theorem updown_frame_noop {g : Game} {i : Input} {s : List Card}
    (hi : i = .up ∨ i = .down) :
    (((∃ st, g.state = .starting st) ∨ g.state = .standing ∨
        (∃ r, g.state = .gameOver r)) →
      g.update i s = some g) ∧
    (g.state = .presenting → g.update i s = some { g with state := .selecting .hit }) := by
  obtain ⟨deck, state, player, dealer⟩ := g
  constructor
  · rintro (⟨st, hst⟩ | hst | ⟨r, hst⟩) <;> simp only at hst <;> subst hst <;>
      rcases hi with hi | hi <;> subst hi <;>
      first
        | rfl
        | (cases st <;> rfl)
  · intro hst
    simp only at hst
    subst hst
    rcases hi with hi | hi <;> subst hi <;> rfl

/-- Witness for C4 amended: `Up` at the initial state is a full no-op. -/
theorem updown_frame_noop_witness : Game.new.update .up [] = some Game.new :=
  (updown_frame_noop (Or.inl rfl)).1 (Or.inl ⟨.first, rfl⟩)

/-- C5 counterexample: `Up` and `Down` step the menu in the same direction in the
source, so `Up` then `Down` from `Hit` ends at `Surrender`, not back at `Hit`. -/
theorem up_down_not_inverses :
    gSelectEx.update .up [] = some { gSelectEx with state := .selecting .stand } ∧
    ({ gSelectEx with state := .selecting .stand } : Game).update .down []
      = some { gSelectEx with state := .selecting .surrender } ∧
    State.selecting .surrender ≠ gSelectEx.state :=
  ⟨rfl, rfl, by decide⟩

/-- C5 amended: in `Selecting`, `Up` and `Down` both move the highlighted choice
one step along the same 3-cycle `Hit → Stand → Surrender → Hit` (so they are not
mutual inverses; three consecutive moves return to the start), dealing no cards and
leaving hands and deck unchanged. -/
theorem updown_same_cycle {g : Game} {c : Choice} {i : Input} {s : List Card}
    (hst : g.state = .selecting c) (hi : i = .up ∨ i = .down) :
    g.update i s = some { g with state := .selecting c.next } ∧
    c.next.next.next = c := by
  obtain ⟨deck, state, player, dealer⟩ := g
  simp only at hst
  subst hst
  rcases hi with hi | hi <;> subst hi <;> cases c <;> exact ⟨rfl, rfl⟩

/-- Witness for C5 amended: `Up` from `Selecting(Hit)` highlights `Stand`. -/
theorem updown_same_cycle_witness :
    gSelectEx.update .up [] = some { gSelectEx with state := .selecting (Choice.next .hit) } ∧
    (Choice.next .hit).next.next = .hit :=
  @updown_same_cycle gSelectEx .hit .up [] rfl (Or.inl rfl)

/-- C8: no reachable state is `Standing` with the dealer at 17 or more; and from
`Standing`, a `Continue` step stays in `Standing` exactly when the dealer's new
total is still below 17, while a total of 17 or more always ends the round in some
`GameOver` state. -/
theorem standing_below17 {g : Game} (h : Reachable g) (hst : g.state = .standing) :
    g.dealer.points < 17 ∧
    ∀ (s : List Card) (g' : Game), g.update .cont s = some g' →
      ((g'.state = .standing ↔ g'.dealer.points < 17) ∧
       (17 ≤ g'.dealer.points → ∃ r, g'.state = .gameOver r)) := by
  obtain ⟨hc, hlp, hld, hphase⟩ := inv_of_reachable h
  rw [hst] at hphase
  obtain ⟨hp21, hd17⟩ := hphase
  refine ⟨hd17, ?_⟩
  intro s g' hupd
  obtain ⟨deck, state, player, dealer⟩ := g
  simp only at hst
  subst hst
  cases hL : deck.getLast? with
  | none => simp [Game.update, Game.dealDealer, hL] at hupd
  | some c =>
    simp [Game.update, Game.dealDealer, hL] at hupd
    subst hupd
    constructor
    · dsimp only
      split
      next h1 => simp; omega
      next h1 =>
        split
        next h2 => simpa using h2
        next h2 =>
          split
          next h3 => simp; omega
          next h3 =>
            split
            next h4 => simp; omega
            next h4 => simp; omega
    · intro h17
      dsimp only at h17 ⊢
      split
      next h1 => exact ⟨.win, rfl⟩
      next h1 =>
        split
        next h2 => exact absurd h17 (by omega)
        next h2 =>
          split
          next h3 => exact ⟨.lose, rfl⟩
          next h3 =>
            split
            next h4 => exact ⟨.win, rfl⟩
            next h4 => exact ⟨.tie, rfl⟩

/-- Witness for C8: the reachable `Standing` state `gR5` has the dealer at 6. -/
theorem standing_below17_witness : gR5.dealer.points < 17 :=
  (standing_below17 gR5_reachable rfl).1

/-- C9: from any reachable state, `update` never hits the empty-deck `unwrap()`
panic, whatever the input and whatever permutation the shuffle produces: every
card-dealing transition finds a non-empty deck. -/
theorem update_never_fails {g : Game} (h : Reachable g) (i : Input) (s : List Card)
    (hs : List.Perm s g.deck) : g.update i s ≠ none := by
  obtain ⟨hc, hlp, hld, hphase⟩ := inv_of_reachable h
  have h52 := conserved_length hc
  have hslen := hs.length_eq
  obtain ⟨deck, state, player, dealer⟩ := g
  simp only at hlp hld hphase h52 hslen ⊢
  cases state with
  | presenting => exact hphase.elim
  | starting st =>
    cases st with
    | first =>
      obtain ⟨hp, hd⟩ := hphase
      cases i with
      | cont =>
        have hlp0 : player.cards.length = 0 := by rw [hp]; rfl
        have hld0 : dealer.cards.length = 0 := by rw [hd]; rfl
        have hne : s ≠ [] := List.length_pos.mp (by omega)
        have hL := List.getLast?_eq_getLast_of_ne_nil hne
        simp [Game.update, Game.dealPlayer, hL]
      | up => simp [Game.update]
      | down => simp [Game.update]
    | second =>
      obtain ⟨hp1, hp2, hd⟩ := hphase
      cases i with
      | cont =>
        have hld0 : dealer.cards.length = 0 := by rw [hd]; rfl
        have hne : deck ≠ [] := List.length_pos.mp (by omega)
        have hL := List.getLast?_eq_getLast_of_ne_nil hne
        simp [Game.update, Game.dealDealer, hL]
      | up => simp [Game.update]
      | down => simp [Game.update]
    | third =>
      obtain ⟨hp1, hp2, hd1, hd2⟩ := hphase
      cases i with
      | cont =>
        have hne : deck ≠ [] := List.length_pos.mp (by omega)
        have hL := List.getLast?_eq_getLast_of_ne_nil hne
        simp [Game.update, Game.dealPlayer, hL]
      | up => simp [Game.update]
      | down => simp [Game.update]
  | selecting choice =>
    obtain ⟨hp21, hd1, hd11⟩ := hphase
    have hne : deck ≠ [] := List.length_pos.mp (by omega)
    have hL := List.getLast?_eq_getLast_of_ne_nil hne
    cases i with
    | cont =>
      cases choice with
      | hit => simp [Game.update, Game.dealPlayer, hL]
      | stand => simp [Game.update, Game.dealDealer, hL]
      | surrender => simp [Game.update]
    | up => cases choice <;> simp [Game.update]
    | down => cases choice <;> simp [Game.update]
  | standing =>
    obtain ⟨hp21, hd17⟩ := hphase
    cases i with
    | cont =>
      have hne : deck ≠ [] := List.length_pos.mp (by omega)
      have hL := List.getLast?_eq_getLast_of_ne_nil hne
      simp [Game.update, Game.dealDealer, hL]
    | up => simp [Game.update]
    | down => simp [Game.update]
  | gameOver r =>
    cases i with
    | cont => simp [Game.update]
    | up => simp [Game.update]
    | down => simp [Game.update]

/-- Witness for C9 at the initial state with the identity shuffle. -/
theorem update_never_fails_witness : Game.new.update .cont pack ≠ none :=
  update_never_fails Reachable.init .cont pack (List.Perm.refl pack)

/-- C10 counterexample: after 26 kings the u16 total kept by `game.rs` is 260 while
the u8 fold of `card.rs` has wrapped to 4, so the two scorings disagree on this
sequence. -/
theorem points_disagree_on_26_kings :
    (Hand.ofList (List.replicate 26 ⟨.king, .clubs⟩)).points = 260 ∧
    CardRs.points (List.replicate 26 ⟨.king, .clubs⟩) = 4 ∧
    (Hand.ofList (List.replicate 26 ⟨.king, .clubs⟩)).points ≠
      CardRs.points (List.replicate 26 ⟨.king, .clubs⟩) := by
  refine ⟨by decide, by decide, by decide⟩

/-- C10 amended: for every card sequence whose unbounded running total stays at
most 245 (so neither the u8 accumulator of `card.rs` nor the u16 total of
`game.rs` can wrap; every hand dealt in play is far below this), the points field
maintained incrementally by `Hand::add_card` of `game.rs` equals the total
recomputed from scratch by the fold of `Hand::points` in `card.rs`. -/
theorem points_agree_of_no_wrap {l : List Card} (h : natPoints l ≤ 245) :
    (Hand.ofList l).points = CardRs.points l := by
  have h1 := fold_agree l 0 (by simpa [natPoints] using h)
  have h2 : (Hand.ofList l).points = l.foldl step16 0 := by
    simpa [Hand.new] using ofList_points l Hand.new
  rw [h2, cardRs_points_eq_fold l, h1.1, h1.2]

/-- Witness for C10 amended: on `[King, Ace]` (total 21) both scorings give 21. -/
theorem points_agree_of_no_wrap_witness :
    natPoints [⟨.king, .clubs⟩, ⟨.ace, .spades⟩] ≤ 245 ∧
    (Hand.ofList [⟨.king, .clubs⟩, ⟨.ace, .spades⟩]).points
      = CardRs.points [⟨.king, .clubs⟩, ⟨.ace, .spades⟩] :=
  ⟨by decide, points_agree_of_no_wrap (by decide)⟩

end Blackjack
